import Mathlib

/-!
Shallow embedding of the core of `spinny-bot` (src/bot.js and the test driver).

Conventions of the embedding:
* JS arrays become `List`s.
* `Math.random()` results are modelled as explicit `ℚ` parameters in `[0, 1)`;
  a code path that makes several draws takes a stream `rs : ℕ → ℚ` and an
  offset `k` numbering the next draw.
* `Math.floor` on a nonnegative rational is `Int.floor` followed by `Int.toNat`.
* A JS function that can return `null` returns an `Option`.
* Angles (which the JS computes with `Math.PI` floats) are idealized as `ℝ`.
* The `while` loop of the elimination tournament is embedded with a fuel
  parameter; fuel `pool.length` is enough for every run with valid randomness,
  and `elimination` instantiates it that way.
-/

namespace SpinnyBot

/-- Models `Math.floor(r * n)` for one `Math.random()` result `r`,
as used for index draws (`spinWheel` and the Fisher–Yates `j` draw). -/
def randIndex (r : ℚ) (n : ℕ) : ℕ :=
  (⌊r * n⌋).toNat

/-- src/bot.js `spinWheel(users)` (lines 376–382): returns `null` on a missing
or empty pool, otherwise `Math.floor(Math.random() * users.length)`.
The random draw is the explicit parameter `r`; the JS number result is the
integer `⌊r * users.length⌋`. -/
def spinWheel {α : Type} (r : ℚ) (users : List α) : Option ℤ :=
  if users.length = 0 then none
  else some ⌊r * (users.length : ℚ)⌋

/-- One `[a[i], a[j]] = [a[j], a[i]]` destructuring swap on a JS array.
Both indices are in range at every call site of the source loop; out-of-range
access is modelled as a no-op. -/
def listSwap {α : Type} (a : List α) (i j : ℕ) : List α :=
  match a[i]?, a[j]? with
  | some x, some y => (a.set i y).set j x
  | _, _ => a

/-- The `for (let i = a.length - 1; i > 0; i--)` body of `shuffleArray`
(src/bot.js lines 385–392): at loop counter `i`, draw
`j = Math.floor(Math.random() * (i + 1))` and swap `a[i]` with `a[j]`.
The first argument after the stream offset is the current loop counter. -/
def fyLoop {α : Type} (rs : ℕ → ℚ) : ℕ → ℕ → List α → List α
  | _, 0, a => a
  | k, i + 1, a => fyLoop rs (k + 1) i (listSwap a (i + 1) (randIndex (rs k) (i + 2)))

/-- src/bot.js `shuffleArray(arr)` (lines 385–392): copy the array
(`arr.slice()`, the identity in this value-level model) and run the
Fisher–Yates loop from `a.length - 1` down to `1`. -/
def shuffleArray {α : Type} (rs : ℕ → ℚ) (k : ℕ) (arr : List α) : List α :=
  fyLoop rs k (arr.length - 1) arr

/-- src/bot.js `orderedForWinner(names, winnerIndex)` (lines 396–403):
empty input gives `[]`; otherwise take `winner = names[winnerIndex]`,
remove index `winnerIndex` from a copy (`slice` then `splice`), shuffle the
rest and prepend the winner. `names[winnerIndex]` for an out-of-range index
(JS `undefined`) is modelled by `getD` with the default element. -/
def orderedForWinner {α : Type} [Inhabited α] (rs : ℕ → ℚ) (k : ℕ)
    (names : List α) (winnerIndex : ℕ) : List α :=
  if names.length = 0 then []
  else
    names.getD winnerIndex default ::
      shuffleArray rs k (names.eraseIdx winnerIndex)

/-- The `while (remaining.length > 1)` elimination loop of the `!spin` handler
(src/bot.js lines 628–662) and of the test driver (part_000 lines 163–177):
draw `winnerIndex = spinWheel(remaining)`, stop if it is `null`, record
`remaining[winnerIndex]` as removed, and continue on
`remaining.splice(winnerIndex, 1)`. Returns (removed participants in round
order, final pool). `fuel` bounds the number of iterations. -/
def elimLoop {α : Type} [Inhabited α] (rs : ℕ → ℚ) : ℕ → ℕ → List α → List α × List α
  | 0, _, pool => ([], pool)
  | fuel + 1, k, pool =>
    if pool.length ≤ 1 then ([], pool)
    else
      match spinWheel (rs k) pool with
      | none => ([], pool)
      | some i =>
        let wi := i.toNat
        let rest := elimLoop rs fuel (k + 1) (pool.eraseIdx wi)
        (pool.getD wi default :: rest.1, rest.2)

/-- The elimination tournament on an initial pool: the source loop runs until
one participant remains; fuel `pool.length` suffices for that. -/
def elimination {α : Type} [Inhabited α] (rs : ℕ → ℚ) (pool : List α) :
    List α × List α :=
  elimLoop rs pool.length 0 pool

/-- The spec's error kind for precondition violations (spec.md §7). -/
inductive SpinError : Type
  | invalidInput
deriving DecidableEq

/-- The `!spin` step-2 entry (src/bot.js lines 613–617): a pool of fewer than
two participants is rejected before any round runs (the handler reports the
failure and returns); otherwise the elimination loop runs. The rejection
path is the spec's `InvalidInput`. -/
def runTournament {α : Type} [Inhabited α] (rs : ℕ → ℚ) (pool : List α) :
    Except SpinError (List α × List α) :=
  if pool.length < 2 then Except.error SpinError.invalidInput
  else Except.ok (elimination rs pool)

/-- src/bot.js line 110: `const POINTER_ANGLE = 0` (radians, points right). -/
def POINTER_ANGLE : ℝ := 0

/-- src/bot.js line 112: `const FIXED_ROTATIONS = 4`. -/
def FIXED_ROTATIONS : ℕ := 4

/-- src/bot.js line 271: `const totalFrames = 60`. -/
def totalFrames : ℕ := 60

/-- src/bot.js line 272: `const slowDownFrames = 20`. -/
def slowDownFrames : ℕ := 20

noncomputable section

/-- src/bot.js line 274: `anglePerSegment = (2 * Math.PI) / names.length`,
as a function of the segment count `S`. -/
def anglePerSegment (S : ℕ) : ℝ := (2 * Real.pi) / S

/-- src/bot.js line 276: the winner segment's midpoint angle at rotation 0,
`((winnerIndex + 0.5) * anglePerSegment) - (Math.PI / 2)`. -/
def slotMidAngle (S slot : ℕ) : ℝ :=
  ((slot : ℝ) + 0.5) * anglePerSegment S - Real.pi / 2

/-- src/bot.js line 278, generalized over the whole-rotation count `R` and
pointer angle `P` as in spec.md §4.4:
`finalRotationRad = (totalRotations * 2 * Math.PI) + (POINTER_ANGLE - winnerMidAngle)`.
The source instantiates `R = FIXED_ROTATIONS` and `P = POINTER_ANGLE`. -/
def finalRotationRad (R : ℕ) (P : ℝ) (S slot : ℕ) : ℝ :=
  (R : ℝ) * (2 * Real.pi) + (P - slotMidAngle S slot)

/-- src/bot.js line 292: `progress = frame / (totalFrames - 1)`. -/
def progress (frame : ℕ) : ℝ := (frame : ℝ) / ((totalFrames : ℝ) - 1)

/-- src/bot.js line 289: `easeOutCubic(t) = 1 - Math.pow(1 - t, 3)`. -/
def easeOutCubic (t : ℝ) : ℝ := 1 - (1 - t) ^ 3

/-- src/bot.js line 294: `angle = eased * finalRotationRad` at a frame. -/
def angleAt (finalRot : ℝ) (frame : ℕ) : ℝ :=
  easeOutCubic (progress frame) * finalRot

/-- One frame of the animation as observed by the GIF encoder: the wheel
rotation angle, the per-frame delay, and which segment is drawn highlighted
(`null` for none). -/
structure Frame where
  angle : ℝ
  delay : ℕ
  highlight : Option ℕ

/-- The per-frame delay set on src/bot.js lines 303 and 306:
`frame < totalFrames - slowDownFrames ? 30 : 50 + (frame - (totalFrames - slowDownFrames)) * 15`. -/
def frameDelay (frame : ℕ) : ℕ :=
  if frame < totalFrames - slowDownFrames then 30
  else 50 + (frame - (totalFrames - slowDownFrames)) * 15

/-- The frame emitted at index `frame` by the loop of
`createSpinningAnimation` (src/bot.js lines 291–309): the wheel is drawn
rotated by `eased * finalRotationRad`, and on the last five frames
(`frame >= totalFrames - 5`) it is redrawn with `winnerIndex` highlighted. -/
def frameOf (names : List String) (winnerIndex frame : ℕ) : Frame :=
  { angle := angleAt (finalRotationRad FIXED_ROTATIONS POINTER_ANGLE names.length winnerIndex) frame
    delay := frameDelay frame
    highlight := if totalFrames - 5 ≤ frame then some winnerIndex else none }

/-- src/bot.js `createSpinningAnimation(names, winnerIndex, channel)`
(lines 266–318), abstracted to its observable output: `null` for a missing or
empty names list, otherwise the ordered frame schedule handed to the GIF
encoder. The GIF encoding and the channel send are external I/O collaborators
and are not part of the schedule. -/
def createSpinningAnimation (names : List String) (winnerIndex : ℕ) :
    Option (List Frame) :=
  if names.length = 0 then none
  else some ((List.range totalFrames).map (frameOf names winnerIndex))

/-- src/bot.js `createCssSpinAnimation(names, winnerIndex, channel)`
(lines 326–330): the body is exactly
`return await createSpinningAnimation(names, 0, channel)`. -/
def createCssSpinAnimation (names : List String) (winnerIndex : ℕ) :
    Option (List Frame) :=
  createSpinningAnimation names 0

end

/-! A small store model for the mutation claims: JS array variables are
addresses into a heap of string arrays, `slice()` allocates a fresh copy, and
element mutation writes back through the variable's address. This makes
"does not mutate the input array" a statement about the heap rather than a
triviality of the value-level model. -/

/-- A heap of JS string arrays; an address is an index. -/
abbrev Heap : Type := List (List String)

/-- Allocate a fresh array (e.g. the result of `slice()`), returning the new
heap and the fresh address. -/
def halloc (h : Heap) (a : List String) : Heap × ℕ :=
  (h ++ [a], List.length h)

/-- Read the array at an address (unallocated reads give `[]`). -/
def hread (h : Heap) (r : ℕ) : List String :=
  List.getD h r []

/-- Overwrite the array at an address. -/
def hwrite (h : Heap) (r : ℕ) (a : List String) : Heap :=
  List.set h r a

/-- Heap-level Fisher–Yates loop of `shuffleArray` (src/bot.js lines 387–390):
each iteration reads the array at `aRef`, swaps entries `i` and
`j = Math.floor(Math.random() * (i + 1))`, and writes it back through `aRef`. -/
def fyLoopH (rs : ℕ → ℚ) : ℕ → ℕ → Heap → ℕ → Heap
  | _, 0, h, _ => h
  | k, i + 1, h, aRef =>
    fyLoopH rs (k + 1) i
      (hwrite h aRef (listSwap (hread h aRef) (i + 1) (randIndex (rs k) (i + 2)))) aRef

/-- Heap-level `shuffleArray(arr)` (src/bot.js lines 385–392): `const a =
arr.slice()` allocates a copy, the loop mutates only that copy, and the copy's
address is returned. -/
def shuffleArrayH (rs : ℕ → ℚ) (k : ℕ) (h : Heap) (arrRef : ℕ) : Heap × ℕ :=
  let al := halloc h (hread h arrRef)
  (fyLoopH rs k ((hread al.1 al.2).length - 1) al.1 al.2, al.2)

/-- Heap-level `orderedForWinner(names, winnerIndex)` (src/bot.js lines
396–403): `names` is passed by reference; `const others = names.slice()`
allocates a copy, `others.splice(winnerIndex, 1)` mutates the copy in place,
and `shuffleArray(others)` works on a further copy. Returns the final heap
and the result array value. -/
def orderedForWinnerH (rs : ℕ → ℚ) (k : ℕ) (h : Heap) (namesRef : ℕ)
    (winnerIndex : ℕ) : Heap × List String :=
  let names := hread h namesRef
  if names.length = 0 then (h, [])
  else
    let winner := names.getD winnerIndex default
    let al := halloc h names
    let h₂ := hwrite al.1 al.2 ((hread al.1 al.2).eraseIdx winnerIndex)
    let sh := shuffleArrayH rs k h₂ al.2
    (sh.1, winner :: hread sh.1 sh.2)

/-! Helper lemmas. -/

theorem cons_set_perm {α : Type} (x y : α) :
    ∀ (t : List α) (m : ℕ), t[m]? = some y → (y :: t.set m x).Perm (x :: t) := by
  intro t
  induction t with
  | nil => intro m hm; simp at hm
  | cons b t ih =>
    intro m hm
    cases m with
    | zero =>
      simp at hm
      subst hm
      exact List.Perm.swap x b t
    | succ n =>
      simp at hm
      have h1 : (y :: b :: t.set n x).Perm (b :: y :: t.set n x) := List.Perm.swap b y _
      have h2 : (b :: y :: t.set n x).Perm (b :: x :: t) := (ih n hm).cons b
      have h3 : (b :: x :: t).Perm (x :: b :: t) := List.Perm.swap x b t
      exact (h1.trans h2).trans h3

theorem set_set_perm {α : Type} :
    ∀ (a : List α) (i j : ℕ) (x y : α),
      a[i]? = some x → a[j]? = some y → ((a.set i y).set j x).Perm a := by
  intro a
  induction a with
  | nil => intro i j x y hi _; simp at hi
  | cons b t ih =>
    intro i j x y hi hj
    cases i with
    | zero =>
      simp at hi
      subst hi
      cases j with
      | zero =>
        simp at hj
        subst hj
        exact List.Perm.refl _
      | succ n =>
        simp at hj
        exact cons_set_perm b y t n hj
    | succ m =>
      simp at hi
      cases j with
      | zero =>
        simp at hj
        subst hj
        exact cons_set_perm b x t m hi
      | succ n =>
        simp at hj
        exact (ih m n x y hi hj).cons b

theorem listSwap_perm {α : Type} (a : List α) (i j : ℕ) :
    (listSwap a i j).Perm a := by
  unfold listSwap
  split
  · next x y hi hj => exact set_set_perm a i j x y hi hj
  · exact List.Perm.refl a

theorem fyLoop_perm {α : Type} (rs : ℕ → ℚ) :
    ∀ (i k : ℕ) (a : List α), (fyLoop rs k i a).Perm a := by
  intro i
  induction i with
  | zero => intro k a; exact List.Perm.refl a
  | succ n ih =>
    intro k a
    exact (ih (k + 1) _).trans (listSwap_perm a (n + 1) _)

theorem shuffleArray_perm {α : Type} (rs : ℕ → ℚ) (k : ℕ) (arr : List α) :
    (shuffleArray rs k arr).Perm arr :=
  fyLoop_perm rs (arr.length - 1) k arr

theorem getD_cons_eraseIdx_perm {α : Type} [Inhabited α] (l : List α) (i : ℕ)
    (h : i < l.length) : (l.getD i default :: l.eraseIdx i).Perm l := by
  have hg : l.getD i default = l[i] := by
    simp [List.getD_eq_getElem?_getD, List.getElem?_eq_getElem h]
  have hsplit : l.take i ++ l[i] :: l.drop (i + 1) = l := by
    conv_rhs => rw [← List.take_append_drop i l, List.drop_eq_getElem_cons h]
  rw [hg, List.eraseIdx_eq_take_drop_succ]
  calc (l[i] :: (l.take i ++ l.drop (i + 1))).Perm
        (l.take i ++ l[i] :: l.drop (i + 1)) := List.perm_middle.symm
    _ = l := hsplit

theorem randIndex_lt (r : ℚ) (n : ℕ) (h0 : 0 ≤ r) (h1 : r < 1) (hn : 1 ≤ n) :
    randIndex r n < n := by
  unfold randIndex
  have hpos : (0 : ℚ) < n := by exact_mod_cast hn
  have hmul : r * n < n := by
    calc r * (n : ℚ) < 1 * n := mul_lt_mul_of_pos_right h1 hpos
      _ = n := one_mul _
  have hfl : ⌊r * (n : ℚ)⌋ < (n : ℤ) := Int.floor_lt.mpr (by exact_mod_cast hmul)
  have hnn : (0 : ℤ) ≤ ⌊r * (n : ℚ)⌋ :=
    Int.floor_nonneg.mpr (mul_nonneg h0 (le_of_lt hpos))
  exact (Int.toNat_lt hnn).mpr hfl

theorem spinWheel_eq {α : Type} (r : ℚ) (users : List α) (h : users.length ≠ 0) :
    spinWheel r users = some ⌊r * (users.length : ℚ)⌋ := by
  unfold spinWheel
  rw [if_neg h]

theorem elimLoop_step {α : Type} [Inhabited α] (rs : ℕ → ℚ) (f k : ℕ)
    (pool : List α) (h : 1 < pool.length) :
    elimLoop rs (f + 1) k pool =
      (pool.getD (randIndex (rs k) pool.length) default ::
        (elimLoop rs f (k + 1) (pool.eraseIdx (randIndex (rs k) pool.length))).1,
       (elimLoop rs f (k + 1) (pool.eraseIdx (randIndex (rs k) pool.length))).2) := by
  have hne : pool.length ≠ 0 := by omega
  conv_lhs => rw [elimLoop]
  rw [if_neg (by omega), spinWheel_eq (rs k) pool hne]
  rfl

theorem elimLoop_spec {α : Type} [Inhabited α] (rs : ℕ → ℚ)
    (hrs : ∀ n, 0 ≤ rs n ∧ rs n < 1) :
    ∀ (fuel k : ℕ) (pool : List α), 1 ≤ pool.length → pool.length ≤ fuel + 1 →
      (elimLoop rs fuel k pool).1.length = pool.length - 1 ∧
      (elimLoop rs fuel k pool).2.length = 1 ∧
      ((elimLoop rs fuel k pool).1 ++ (elimLoop rs fuel k pool).2).Perm pool := by
  intro fuel
  induction fuel with
  | zero =>
    intro k pool h1 h2
    have hlen : pool.length = 1 := le_antisymm h2 h1
    refine ⟨?_, ?_, ?_⟩ <;> simp [elimLoop, hlen]
  | succ f ih =>
    intro k pool h1 h2
    by_cases hle : pool.length ≤ 1
    · have hlen : pool.length = 1 := le_antisymm hle h1
      refine ⟨?_, ?_, ?_⟩ <;> simp [elimLoop, hle, hlen]
    · push_neg at hle
      have hwl : randIndex (rs k) pool.length < pool.length :=
        randIndex_lt _ _ (hrs k).1 (hrs k).2 (by omega)
      rw [elimLoop_step rs f k pool hle]
      have herase : (pool.eraseIdx (randIndex (rs k) pool.length)).length
          = pool.length - 1 := List.length_eraseIdx_of_lt hwl
      obtain ⟨ih1, ih2, ih3⟩ :=
        ih (k + 1) (pool.eraseIdx (randIndex (rs k) pool.length))
          (by omega) (by omega)
      refine ⟨?_, ?_, ?_⟩
      · simp only [List.length_cons, ih1, herase]
        omega
      · simpa using ih2
      · have hcons := ih3.cons (pool.getD (randIndex (rs k) pool.length) default)
        have := hcons.trans
          (getD_cons_eraseIdx_perm pool (randIndex (rs k) pool.length) hwl)
        simpa using this

theorem getD_eq_get {α : Type} [Inhabited α] (l : List α) (i : ℕ)
    (h : i < l.length) : l.getD i default = l.get ⟨i, h⟩ := by
  simp [List.getD_eq_getElem?_getD, List.getElem?_eq_getElem h]

/-! Claim theorems. -/

/-- C1: for every initial pool of size `N ≥ 2` and every valid random stream,
the elimination loop removes exactly `N − 1` participants, leaves exactly one
survivor, and removed participants plus survivor are a permutation of the
original pool (no duplicates, no omissions); moreover each round draws an
in-range index via `spinWheel`, removes exactly the participant at that index
(next pool = `take i ++ drop (i+1)`, relative order preserved), and shrinks
the pool by exactly one. -/
theorem elimination_tournament_correct (rs : ℕ → ℚ) (pool : List String)
    (hrs : ∀ n, 0 ≤ rs n ∧ rs n < 1) (hN : 2 ≤ pool.length) :
    (elimination rs pool).1.length = pool.length - 1 ∧
    (elimination rs pool).2.length = 1 ∧
    ((elimination rs pool).1 ++ (elimination rs pool).2).Perm pool ∧
    ∀ (q : List String) (f m : ℕ), 1 < q.length →
      ∃ (i : ℕ) (hi : i < q.length),
        spinWheel (rs m) q = some (i : ℤ) ∧
        elimLoop rs (f + 1) m q =
          (q.get ⟨i, hi⟩ :: (elimLoop rs f (m + 1) (q.take i ++ q.drop (i + 1))).1,
           (elimLoop rs f (m + 1) (q.take i ++ q.drop (i + 1))).2) ∧
        (q.take i ++ q.drop (i + 1)).length + 1 = q.length := by
  obtain ⟨h1, h2, h3⟩ :=
    elimLoop_spec rs hrs pool.length 0 pool (by omega) (by omega)
  refine ⟨h1, h2, h3, ?_⟩
  intro q f m hq
  have hne : q.length ≠ 0 := by omega
  have hiw : randIndex (rs m) q.length < q.length :=
    randIndex_lt _ _ (hrs m).1 (hrs m).2 (by omega)
  refine ⟨randIndex (rs m) q.length, hiw, ?_, ?_, ?_⟩
  · rw [spinWheel_eq _ _ hne]
    congr 1
    exact (Int.toNat_of_nonneg
      (Int.floor_nonneg.mpr (mul_nonneg (hrs m).1 (Nat.cast_nonneg _)))).symm
  · rw [elimLoop_step rs f m q hq,
      getD_eq_get q (randIndex (rs m) q.length) hiw,
      List.eraseIdx_eq_take_drop_succ]
  · rw [← List.eraseIdx_eq_take_drop_succ, List.length_eraseIdx_of_lt hiw]
    omega

/-- Witness for C1 at the pool `["A", "B", "C"]` with the constant-zero
random stream. -/
theorem elimination_tournament_correct_witness :
    2 ≤ (["A", "B", "C"] : List String).length ∧
    (elimination (fun _ => (0 : ℚ)) ["A", "B", "C"]).1.length = 2 ∧
    (elimination (fun _ => (0 : ℚ)) ["A", "B", "C"]).2.length = 1 :=
  ⟨by decide,
   (elimination_tournament_correct (fun _ => (0 : ℚ)) ["A", "B", "C"]
      (fun _ => ⟨le_refl 0, zero_lt_one⟩) (by decide)).1,
   (elimination_tournament_correct (fun _ => (0 : ℚ)) ["A", "B", "C"]
      (fun _ => ⟨le_refl 0, zero_lt_one⟩) (by decide)).2.1⟩

/-- C3: for every pool of size `N ≥ 1`, valid `winnerIndex` and any random
draws, `orderedForWinner` has length `N`, puts `names[winnerIndex]` at
position 0, is a permutation of `names`, and its tail is a permutation of
`names` with the winner removed. -/
theorem orderedForWinner_spec (rs : ℕ → ℚ) (k : ℕ) (names : List String)
    (wi : ℕ) (h : wi < names.length) :
    (orderedForWinner rs k names wi).length = names.length ∧
    (orderedForWinner rs k names wi).head? = some names[wi] ∧
    (orderedForWinner rs k names wi).Perm names ∧
    (orderedForWinner rs k names wi).tail.Perm (names.eraseIdx wi) := by
  have hne : names.length ≠ 0 := by omega
  have hperm : (orderedForWinner rs k names wi).Perm names := by
    unfold orderedForWinner
    rw [if_neg hne]
    exact ((shuffleArray_perm rs k _).cons _).trans
      (getD_cons_eraseIdx_perm names wi h)
  refine ⟨hperm.length_eq, ?_, hperm, ?_⟩
  · unfold orderedForWinner
    rw [if_neg hne]
    simp [List.getD_eq_getElem?_getD, List.getElem?_eq_getElem h]
  · unfold orderedForWinner
    rw [if_neg hne]
    simpa using shuffleArray_perm rs k (names.eraseIdx wi)

/-- Witness for C3 at `["A", "B"]`, winner index 1, constant-zero draws. -/
theorem orderedForWinner_spec_witness :
    1 < (["A", "B"] : List String).length ∧
    (orderedForWinner (fun _ => (0 : ℚ)) 0 ["A", "B"] 1).head? = some "B" :=
  ⟨by decide,
   (orderedForWinner_spec (fun _ => (0 : ℚ)) 0 ["A", "B"] 1 (by decide)).2.1⟩

/-- C5: `spinWheel` on an empty pool fails immediately: it returns the
JS `null` (modelled `none`), the spec's `InvalidInput` outcome, for every
random draw. -/
theorem spinWheel_empty_invalid (r : ℚ) :
    spinWheel r ([] : List String) = none := rfl

/-- C6: a pool of fewer than two participants is rejected with
`InvalidInput` before any elimination round runs. -/
theorem tournament_rejects_small_pool (rs : ℕ → ℚ) (pool : List String)
    (h : pool.length < 2) :
    runTournament rs pool = Except.error SpinError.invalidInput := by
  unfold runTournament
  rw [if_pos h]

/-- Witness for C6 at the single-element pool `["A"]`. -/
theorem tournament_rejects_small_pool_witness :
    (["A"] : List String).length < 2 ∧
    runTournament (fun _ => (0 : ℚ)) ["A"] = Except.error SpinError.invalidInput :=
  ⟨by decide, tournament_rejects_small_pool (fun _ => (0 : ℚ)) ["A"] (by decide)⟩

/-- C9: for every pool of size `N ≥ 1` and every random value in `[0, 1)`,
`spinWheel` returns an index in `[0, N)`, so the caller's lookup at that
index is in bounds. -/
theorem spinWheel_index_in_range (r : ℚ) (users : List String)
    (h0 : 0 ≤ r) (h1 : r < 1) (hN : 1 ≤ users.length) :
    ∃ i : ℕ, spinWheel r users = some (i : ℤ) ∧ i < users.length := by
  have hne : users.length ≠ 0 := by omega
  refine ⟨randIndex r users.length, ?_, randIndex_lt r users.length h0 h1 hN⟩
  rw [spinWheel_eq r users hne]
  congr 1
  exact (Int.toNat_of_nonneg
    (Int.floor_nonneg.mpr (mul_nonneg h0 (Nat.cast_nonneg _)))).symm

/-- C2: for every segment count `S ≥ 1`, slot in `[0, S)`, whole-rotation
count `R` and pointer angle `P`, rotating the zero-rotation layout by
`finalRotationRad` puts the slot's midpoint angle at `P` modulo `2π`:
the difference is an integer multiple (namely `R`) of `2π`. -/
theorem solver_aligns_pointer (S slot R : ℕ) (P : ℝ) (hS : 1 ≤ S)
    (hslot : slot < S) :
    ∃ k : ℤ, slotMidAngle S slot + finalRotationRad R P S slot - P
      = (2 * Real.pi) * k := by
  refine ⟨R, ?_⟩
  unfold finalRotationRad
  push_cast
  ring

/-- Witness for C2 at the spec's end-to-end scenario `S = 8`, `slot = 0`,
`R = 4`, `P = 0`. -/
theorem solver_aligns_pointer_witness :
    1 ≤ 8 ∧ 0 < 8 ∧
    ∃ k : ℤ, slotMidAngle 8 0 + finalRotationRad 4 0 8 0 - 0
      = (2 * Real.pi) * k :=
  ⟨by decide, by decide, solver_aligns_pointer 8 0 4 0 (by decide) (by decide)⟩

theorem easeOutCubic_mono {a b : ℝ} (h : a ≤ b) :
    easeOutCubic a ≤ easeOutCubic b := by
  unfold easeOutCubic
  have h3 : (1 - b) ^ 3 ≤ (1 - a) ^ 3 := by
    nlinarith [sq_nonneg ((1 - a) + (1 - b)), sq_nonneg ((1 - a) - (1 - b)),
      sq_nonneg (1 - a), sq_nonneg (1 - b)]
  linarith

theorem progress_mono {f₁ f₂ : ℕ} (h : f₁ ≤ f₂) :
    progress f₁ ≤ progress f₂ := by
  unfold progress totalFrames
  have hc : (f₁ : ℝ) ≤ f₂ := Nat.cast_le.mpr h
  have hd : (0 : ℝ) < ((60 : ℕ) : ℝ) - 1 := by norm_num
  exact (div_le_div_right hd).mpr hc

/-- C4: with `F = 60` frames and cubic ease-out, the animation angle is `0`
at frame 0, exactly `finalRotationRadians` at frame `F − 1`, and
non-decreasing in the frame index whenever `finalRotationRadians ≥ 0`. -/
theorem timing_curve_correct (finalRot : ℝ) (h : 0 ≤ finalRot) :
    angleAt finalRot 0 = 0 ∧
    angleAt finalRot (totalFrames - 1) = finalRot ∧
    ∀ f₁ f₂ : ℕ, f₁ ≤ f₂ → angleAt finalRot f₁ ≤ angleAt finalRot f₂ := by
  refine ⟨?_, ?_, ?_⟩
  · unfold angleAt easeOutCubic progress
    norm_num
  · unfold angleAt easeOutCubic progress totalFrames
    norm_num
  · intro f₁ f₂ hle
    unfold angleAt
    exact mul_le_mul_of_nonneg_right (easeOutCubic_mono (progress_mono hle)) h

/-- Witness for C4 at `finalRotationRadians = 1`. -/
theorem timing_curve_correct_witness :
    (0 : ℝ) ≤ 1 ∧ angleAt 1 0 = 0 ∧ angleAt 1 (totalFrames - 1) = 1 :=
  ⟨zero_le_one, (timing_curve_correct 1 zero_le_one).1,
   (timing_curve_correct 1 zero_le_one).2.1⟩

/-- C7: at `slot = 0`, `S = 8` with the code's constants `FIXED_ROTATIONS = 4`
and `POINTER_ANGLE = 0`, the final rotation is exactly
`8π + π/2 − π/8`. -/
theorem solver_concrete_value :
    finalRotationRad FIXED_ROTATIONS POINTER_ANGLE 8 0 =
      8 * Real.pi + Real.pi / 2 - Real.pi / 8 := by
  unfold finalRotationRad slotMidAngle anglePerSegment FIXED_ROTATIONS POINTER_ANGLE
  norm_num
  ring

/-- C10: `createCssSpinAnimation` ignores its `winnerIndex` argument: its
observable schedule is exactly `createSpinningAnimation names 0`, and any two
winner indices give the same schedule. -/
theorem css_spin_ignores_winner_index (names : List String) (wi wj : ℕ) :
    createCssSpinAnimation names wi = createSpinningAnimation names 0 ∧
    createCssSpinAnimation names wi = createCssSpinAnimation names wj :=
  ⟨rfl, rfl⟩

/-- Witness for C9 at `r = 0` over a three-element pool. -/
theorem spinWheel_index_in_range_witness :
    (0 : ℚ) ≤ 0 ∧ (0 : ℚ) < 1 ∧
    1 ≤ (["A", "B", "C"] : List String).length ∧
    ∃ i : ℕ, spinWheel (0 : ℚ) (["A", "B", "C"] : List String) = some (i : ℤ) ∧
      i < (["A", "B", "C"] : List String).length :=
  ⟨le_refl 0, zero_lt_one, by decide,
   spinWheel_index_in_range 0 ["A", "B", "C"] (le_refl 0) zero_lt_one (by decide)⟩

theorem hread_halloc_lt (h : Heap) (a : List String) (r : ℕ)
    (hr : r < List.length h) : hread (halloc h a).1 r = hread h r := by
  unfold hread halloc
  simp [List.getD_eq_getElem?_getD, List.getElem?_append_left hr]

theorem hread_hwrite_ne (h : Heap) (r s : ℕ) (a : List String) (hrs : r ≠ s) :
    hread (hwrite h r a) s = hread h s := by
  unfold hread hwrite
  simp [List.getD_eq_getElem?_getD, List.getElem?_set_ne hrs]

theorem fyLoopH_frame (rs : ℕ → ℚ) :
    ∀ (i k : ℕ) (h : Heap) (aRef r : ℕ), r ≠ aRef →
      hread (fyLoopH rs k i h aRef) r = hread h r := by
  intro i
  induction i with
  | zero => intro k h aRef r _; rfl
  | succ n ih =>
    intro k h aRef r hne
    rw [show fyLoopH rs k (n + 1) h aRef
        = fyLoopH rs (k + 1) n
            (hwrite h aRef (listSwap (hread h aRef) (n + 1)
              (randIndex (rs k) (n + 2)))) aRef from rfl]
    rw [ih (k + 1) _ aRef r hne, hread_hwrite_ne h aRef r _ hne.symm]

theorem shuffleArrayH_frame (rs : ℕ → ℚ) (k : ℕ) (hp : Heap) (arrRef r : ℕ)
    (hr : r < List.length hp) :
    hread (shuffleArrayH rs k hp arrRef).1 r = hread hp r := by
  unfold shuffleArrayH
  dsimp only
  have hne : r ≠ (halloc hp (hread hp arrRef)).2 := by
    simp only [halloc]
    omega
  rw [fyLoopH_frame rs _ _ _ _ r hne, hread_halloc_lt _ _ r hr]

/-- C8: `orderedForWinner` never mutates its input array. In the heap model,
after running `orderedForWinnerH` the array at the caller's address holds
exactly the same elements in the same order as before: the function works
only on `slice()` copies. -/
theorem orderedForWinner_preserves_input (rs : ℕ → ℚ) (k : ℕ) (h : Heap)
    (namesRef wi : ℕ) (hv : namesRef < List.length h) :
    hread (orderedForWinnerH rs k h namesRef wi).1 namesRef = hread h namesRef := by
  unfold orderedForWinnerH
  by_cases hz : (hread h namesRef).length = 0
  · simp [hz]
  · rw [if_neg hz]
    dsimp only
    have hlt : namesRef < List.length
        (hwrite (halloc h (hread h namesRef)).1 (halloc h (hread h namesRef)).2
          ((hread (halloc h (hread h namesRef)).1
            (halloc h (hread h namesRef)).2).eraseIdx wi)) := by
      simp only [hwrite, halloc, List.length_set, List.length_append,
        List.length_singleton]
      omega
    have hne1 : (halloc h (hread h namesRef)).2 ≠ namesRef := by
      simp only [halloc]
      omega
    rw [shuffleArrayH_frame rs k _ _ namesRef hlt,
      hread_hwrite_ne _ _ namesRef _ hne1,
      hread_halloc_lt _ _ namesRef hv]

/-- Witness for C8 at a one-array heap. -/
theorem orderedForWinner_preserves_input_witness :
    0 < List.length ([["A", "B"]] : Heap) ∧
    hread (orderedForWinnerH (fun _ => (0 : ℚ)) 0 [["A", "B"]] 0 1).1 0
      = hread [["A", "B"]] 0 :=
  ⟨by decide,
   orderedForWinner_preserves_input (fun _ => (0 : ℚ)) 0 [["A", "B"]] 0 1 (by decide)⟩

end SpinnyBot
